import Mathlib

/-!
Verification of the pymc3-hmm specification against a shallow embedding of
its core inference routines.

The repository ships only its test-suite sources; the package modules
(`pymc3_hmm/step_methods.py` and friends) are not present.  The data model
and the two Gibbs steps (the FFBS engine and the transition-matrix conjugate
updater) are therefore modelled from the specification document, with the
time-indexing conventions pinned down by the concrete input/output vectors of
`tests/test_step_methods.py`.  All arithmetic is exact rational arithmetic;
a per-timestep log-likelihood value is represented by its exponential, a
nonnegative rational weight (the value `-inf` becomes the weight `0`), so the
spec's "subtract the per-step max, then exponentiate" becomes "divide by the
per-step maximal weight".
-/

/-- A numeric vector: a list of rationals. -/
abbrev Vec := List ℚ

/-- A matrix: a list of row vectors. -/
abbrev Mat := List Vec

/-- The random source: a stream of draws, one rational per index. -/
abbrev RNG := ℕ → ℚ

/-- A random source is valid when every draw lies in the unit interval `[0, 1)`. -/
def validRNG (rng : RNG) : Prop := ∀ n, 0 ≤ rng n ∧ rng n < 1

/-- Decidable equality of `Except` results, used to evaluate the model on
concrete inputs. -/
instance exceptDecEq {e a : Type} [DecidableEq e] [DecidableEq a] : DecidableEq (Except e a)
  | .error x, .error y =>
      if h : x = y then .isTrue (by rw [h]) else .isFalse (by intro hc; injection hc; contradiction)
  | .error _, .ok _ => .isFalse (by intro hc; cases hc)
  | .ok _, .error _ => .isFalse (by intro hc; cases hc)
  | .ok x, .ok y =>
      if h : x = y then .isTrue (by rw [h]) else .isFalse (by intro hc; injection hc; contradiction)

/-- Dot product of two vectors (truncating to the shorter one). -/
def dotL (x y : Vec) : ℚ := (List.zipWith (· * ·) x y).sum

/-- Column `j` of a matrix, read entrywise with default `0`. -/
def colOf (M : Mat) (j : ℕ) : Vec := M.map (fun r => r.getD j 0)

/-- Number of columns of a matrix, taken from its first row. -/
def nColsOf (M : Mat) : ℕ := (M.headD []).length

/-- Row-vector/matrix product: `(matVecL v M)[k] = Σ_j v[j] * M[j][k]`. -/
def matVecL (v : Vec) (M : Mat) : Vec :=
  (List.range (nColsOf M)).map (fun k => dotL v (colOf M k))

/-- Modelled from the spec: the transition tensor is "a sequence of T
row-stochastic K×K matrices (or a single matrix broadcast over T)"; a
singleton list is broadcast to every timestep. -/
def getG (Gs : List Mat) (t : ℕ) : Mat :=
  if Gs.length = 1 then Gs.headD [] else Gs.getD t []

/-- Column `t` of the K×T likelihood-weight matrix (one row per state). -/
def likCol (L : List Vec) (t : ℕ) : Vec := L.map (fun row => row.getD t 0)

/-- Maximum entry of a vector of nonnegative weights (`0` for an empty vector). -/
def maxQ (v : Vec) : ℚ := v.foldr max 0

/-- Modelled from the spec: the per-step stabilization "shift log-likelihoods
by subtracting `max_k loglik[k,t]`" expressed on likelihood weights, where the
shift becomes division by the column maximum. -/
def shiftNorm (v : Vec) : Vec := v.map (· / maxQ v)

/-- Componentwise product of two vectors (truncating to the shorter one). -/
def zipMul (x y : Vec) : Vec := List.zipWith (· * ·) x y

/-- Renormalization of a vector to unit sum. -/
def normalizeV (v : Vec) : Vec := v.map (· / v.sum)

/-- Modelled from the spec: the unnormalized filtered vector at time `t`,
`predictive[k] * exp(loglik[k,t] - max_k loglik[k,t])`, where the predictive
distribution applies the time-`t` transition matrix to the previous filtered
distribution.  The test vectors of `tests/test_step_methods.py` fix that the
transition matrix is applied at every timestep, including `t = 0` (where the
previous distribution is `gamma_0`). -/
def rawAlpha (Gs : List Mat) (L : List Vec) (prev : Vec) (t : ℕ) : Vec :=
  zipMul (matVecL prev (getG Gs t)) (shiftNorm (likCol L t))

/-- Modelled from the spec: the forward-filtering pass.  It produces the list
of renormalized filtered distributions `alpha_t`, raising an explicit
computation error (the `Except.error` branch) whenever a filtered distribution
collapses to all-zero mass (§4.1, §7, §9). -/
def forwardAux (Gs : List Mat) (L : List Vec) : Vec → ℕ → ℕ → Except Unit (List Vec)
  | _, _, 0 => .ok []
  | prev, t, n + 1 =>
    let raw := rawAlpha Gs L prev t
    if raw.sum = 0 then .error ()
    else (forwardAux Gs L (normalizeV raw) (t + 1) n).map (fun rest => normalizeV raw :: rest)

/-- Number of timesteps encoded by a K×T likelihood matrix. -/
def numT (L : List Vec) : ℕ := (L.headD []).length

/-- Inverse-CDF selection: the least index whose cumulative probability
exceeds the draw `u`; exact-zero components are skipped. -/
def catSampleAux : List ℚ → ℚ → ℕ
  | [], _ => 0
  | p :: ps, u => if u < p then 0 else catSampleAux ps (u - p) + 1

/-- Modelled from the spec: the categorical sampler.  The weight vector is
renormalized to unit sum and an index is drawn by inverse CDF. -/
def catSample (w : Vec) (u : ℚ) : ℕ := catSampleAux (normalizeV w) u

/-- Modelled from the spec: the backward-sampling recursion.  The list
`revA = [alpha_{tnext-1}, alpha_{tnext-2}, ...]` holds the remaining filtered
distributions in reverse time order; `next` is the state already sampled at
time `tnext`, and each step draws `S_t` from the weights
`alpha_t[k] * Gamma_{t+1}[k, S_{t+1}]`, consuming draw `d` of the source. -/
def bwdAux (Gs : List Mat) (rng : RNG) : List Vec → ℕ → ℕ → ℕ → List ℕ
  | [], _, _, _ => []
  | a :: rest, tnext, next, d =>
    let s := catSample (zipMul a (colOf (getG Gs tnext) next)) (rng d)
    s :: bwdAux Gs rng rest (tnext - 1) s (d + 1)

/-- Modelled from the spec: the backward pass.  `S_{T-1}` is drawn from the
last filtered distribution with draw `0`, then the remaining states are drawn
backwards in time; the result is returned in forward time order. -/
def backwardPass (Gs : List Mat) (alphas : List Vec) (rng : RNG) : List ℕ :=
  match alphas.reverse with
  | [] => []
  | aLast :: restRev =>
    let sLast := catSample aLast (rng 0)
    (sLast :: bwdAux Gs rng restRev (alphas.length - 1) sLast 1).reverse

/-- Modelled from the spec: the FFBS routine as a pure sequence-producing
function: forward filtering followed by backward sampling, or an explicit
error on filtered-distribution collapse. -/
def ffbsSeq (gamma_0 : Vec) (Gammas : List Mat) (log_lik : List Vec) (rng : RNG) :
    Except Unit (List ℕ) :=
  (forwardAux Gammas log_lik gamma_0 0 (numT log_lik)).map
    (fun as => backwardPass Gammas as rng)

/-- The caller-owned buffers of a `ffbs_step` call: the three read-only input
arrays, the K×T scratch array `alphas`, and the length-T result array `res`. -/
structure FFBSBuffers where
  gamma_0 : Vec
  Gammas : List Mat
  log_lik : List Vec
  alphas : List Vec
  res : List ℕ
deriving DecidableEq

/-- Modelled from the spec: the out-parameter interface of `ffbs_step`.  The
call fills the scratch array `alphas` with the filtered distributions and the
result array `res` with the sampled state sequence, leaving the input arrays
untouched; stateful in-place mutation is embedded as explicit state passing. -/
def ffbs_step (b : FFBSBuffers) (rng : RNG) : Except Unit FFBSBuffers :=
  (forwardAux b.Gammas b.log_lik b.gamma_0 0 (numT b.log_lik)).map
    (fun as => { b with alphas := as, res := backwardPass b.Gammas as rng })

/-- Decision procedure for forward-pass collapse: `true` exactly when some
timestep's unnormalized filtered vector sums to zero. -/
def collapsedFrom (Gs : List Mat) (L : List Vec) : Vec → ℕ → ℕ → Bool
  | _, _, 0 => false
  | prev, t, n + 1 =>
    let raw := rawAlpha Gs L prev t
    decide (raw.sum = 0) || collapsedFrom Gs L (normalizeV raw) (t + 1) n

/-- The K×K identity transition matrix. -/
def basisV (K i : ℕ) : Vec := (List.range K).map (fun j => if i = j then 1 else 0)

/-- Identity matrix of size `K`, built from standard basis rows. -/
def idMat (K : ℕ) : Mat := (List.range K).map (fun i => basisV K i)

/-- A scaled one-hot vector of length `K` with value `c` at position `j`. -/
def oneHotV (K j : ℕ) (c : ℚ) : Vec := (List.range K).map (fun i => if j = i then c else 0)

/-- Every entry of the vector is nonnegative. -/
def nonnegV (v : Vec) : Prop := ∀ x ∈ v, 0 ≤ x

/-- Nonnegativity of a vector is decidable entrywise. -/
instance nonnegVDec (v : Vec) : Decidable (nonnegV v) := List.decidableBAll _ v

/-- The support of `b` is contained in the support of `a` (entrywise). -/
def suppLe (a b : Vec) : Prop := ∀ k, 0 < b.getD k 0 → 0 < a.getD k 0

/-- Chain invariant produced by the forward pass: every filtered distribution
is a nonnegative unit-sum vector of length `K`, and supports only shrink as
time advances. -/
def goodChain (K : ℕ) : Vec → List Vec → Prop
  | _, [] => True
  | p, a :: rest =>
      (nonnegV a ∧ a.sum = 1 ∧ a.length = K ∧ suppLe p a) ∧ goodChain K a rest

/- ## Transition-matrix conjugate updater: structural analysis -/

/-- Error kinds raised eagerly at step construction/setup time. -/
inductive PyErr where
  | valueError
  | typeError
  | structuralError
deriving DecidableEq

/-- Modelled from the spec: the closed node-kind set for one row of the
assembled transition matrix — a constant row, a whole-row Dirichlet leaf, an
index-scatter assignment writing a smaller expression into selected columns
of a base row, or an unrecognized operation. -/
inductive RowExpr where
  | constRow (vals : List ℚ)
  | leaf (id : ℕ)
  | scatter (base : RowExpr) (idx : List ℕ) (vals : RowExpr)
  | unknownOp (tag : ℕ)
deriving DecidableEq

/-- Modelled from the spec: the closed node-kind set for the whole
transition-matrix expression — a vertical stack of rows, a horizontal stack
of column vectors, a transpose, a broadcast over the time dimension, or a
bare Dirichlet vector that is not an assembled matrix at all. -/
inductive MatExpr where
  | stackRows (rows : List RowExpr)
  | hstackCols (cols : List RowExpr)
  | transposeOf (inner : MatExpr)
  | broadcastTo (inner : MatExpr)
  | bareVec (id : ℕ)
deriving DecidableEq

/-- Modelled from the spec: match one row of the stack.  A constant row
contributes nothing; a whole-row Dirichlet leaf contributes with no column
subset; a scatter whose written values are a Dirichlet leaf contributes the
exact ordered column-index list it occupies; anything else is a structural
error. -/
def matchRow : RowExpr → Except PyErr (Option (Option (List ℕ)))
  | .constRow _ => .ok none
  | .leaf _ => .ok (some none)
  | .scatter _ idx (.leaf _) => .ok (some (some idx))
  | _ => .error .structuralError

/-- Modelled from the spec: unwind the assembly expression down to its list
of row expressions, through the supported operations (row stacking,
broadcasting, and transpose of a horizontal stack of column vectors).  A bare
Dirichlet vector is rejected with a `ValueError`. -/
def rowsOf : MatExpr → Except PyErr (List RowExpr)
  | .stackRows rs => .ok rs
  | .broadcastTo inner => rowsOf inner
  | .transposeOf (.hstackCols cs) => .ok cs
  | .bareVec _ => .error .valueError
  | _ => .error .structuralError

/-- The RowGroup mapping recovered by the structural analysis: logical
Dirichlet-vector index to destination row (`row_remaps`) and, when the vector
was scattered, to its ordered column subset (`row_slices`). -/
structure TransMatAnalysis where
  row_remaps : List (ℕ × ℕ)
  row_slices : List (ℕ × List ℕ)
deriving DecidableEq

/-- Modelled from the spec: walk the rows in order, numbering the Dirichlet
leaves as they are discovered (`l` is the next logical index, `d` the current
destination row); fully-constant rows are omitted from the mapping. -/
def analyzeRows : List RowExpr → ℕ → ℕ → Except PyErr TransMatAnalysis
  | [], _, _ => .ok ⟨[], []⟩
  | r :: rest, d, l =>
    (matchRow r).bind (fun m =>
      match m with
      | none => analyzeRows rest (d + 1) l
      | some none =>
          (analyzeRows rest (d + 1) (l + 1)).map
            (fun A => ⟨(l, d) :: A.row_remaps, A.row_slices⟩)
      | some (some cols) =>
          (analyzeRows rest (d + 1) (l + 1)).map
            (fun A => ⟨(l, d) :: A.row_remaps, (l, cols) :: A.row_slices⟩))

/-- Modelled from the spec: the setup-time structural analysis performed by
`TransMatConjugateStep` on the transition-matrix expression. -/
def TransMatConjugateStep_analyze (e : MatExpr) : Except PyErr TransMatAnalysis :=
  (rowsOf e).bind (fun rs => analyzeRows rs 0 0)

/- ## Transition-matrix conjugate updater: conjugate draw -/

/-- Number of transitions `d → k` among adjacent pairs of the state sequence. -/
def countTrans (seq : List ℕ) (d k : ℕ) : ℕ :=
  (seq.zip seq.tail).countP (fun p => p.1 == d && p.2 == k)

/-- Modelled from the spec: observed transition counts out of state `d`,
restricted to the recorded ordered column subset. -/
def transCounts (seq : List ℕ) (d : ℕ) (cols : List ℕ) : List ℕ :=
  cols.map (fun k => countTrans seq d k)

/-- Dirichlet posterior concentration: prior concentration plus counts. -/
def dirPosterior (prior : List ℚ) (counts : List ℕ) : List ℚ :=
  List.zipWith (· + ·) prior (counts.map (fun (c : ℕ) => (c : ℚ)))

/-- Mean of a Dirichlet distribution with concentration vector `a`. -/
def dirichletMean (a : List ℚ) : List ℚ := a.map (· / a.sum)

/-- Modelled from the spec: "empirical transition frequencies plus Laplace
smoothing" — each count is incremented by one and divided by the smoothed
total. -/
def laplaceFreq (counts : List ℕ) : List ℚ :=
  counts.map (fun (c : ℕ) => ((c : ℚ) + 1) / ((counts.sum : ℚ) + counts.length))

/-- One logical row of the RowGroup mapping together with its prior:
destination row, optional ordered column subset, and the prior Dirichlet
concentration vector. -/
structure RowGroupEntry where
  dest : ℕ
  cols : Option (List ℕ)
  prior : List ℚ
deriving DecidableEq

/-- Modelled from the spec: the Dirichlet posterior concentration used for one
logical row of the conjugate draw — prior concentration plus the observed
transition counts out of the destination state, restricted to the recorded
column subset when one is present (all `K` columns otherwise). -/
def conjPosterior (K : ℕ) (seq : List ℕ) (e : RowGroupEntry) : List ℚ :=
  dirPosterior e.prior (transCounts seq e.dest (e.cols.getD (List.range K)))

/-- Modelled from the spec: the per-iteration conjugate draw of
`TransMatConjugateStep.step`.  For each logical row it draws the updated row
vector from the Dirichlet posterior built from the current state sequence,
using the provided Dirichlet sampler; the updated vectors are returned in
logical-row order (the write-back to the parameter point). -/
def TransMatConjugateStep_draw (K : ℕ) (seq : List ℕ) (entries : List RowGroupEntry)
    (draw : List ℚ → ℕ → Vec) : List Vec :=
  (entries.enum).map (fun ie => draw (conjPosterior K seq ie.2) ie.1)

/- ## Step-construction validation -/

/-- Kinds of random variables a step method can be attached to. -/
inductive RVKind where
  | discreteMarkovChain
  | categoricalRV
  | switchingProcess
  | poissonRV
  | dirichletRV
deriving DecidableEq

/-- Modelled from the spec: the construction-time validation of `FFBSStep`.
Exactly one variable may be attached (otherwise `ValueError`); it must be a
`DiscreteMarkovChain` (otherwise `TypeError`); and its dependent variable must
be a `SwitchingProcess` (otherwise `TypeError`).  All checks happen eagerly at
setup, before any step executes. -/
def FFBSStep_validate (vars : List RVKind) (dep : RVKind) : Except PyErr Unit :=
  match vars with
  | [v] =>
      if v = .discreteMarkovChain then
        if dep = .switchingProcess then .ok () else .error .typeError
      else .error .typeError
  | _ => .error .valueError

/- ## Concrete instances from the repository test-suite -/

/-- Initial distribution of the two-state static-matrix test: `[0.5, 0.5]`. -/
def gamma0C1 : Vec := [1/2, 1/2]

/-- The single static transition matrix `[[0.9, 0.1], [0.1, 0.9]]`, broadcast
over all timesteps. -/
def GsC1 : List Mat := [[[9/10, 1/10], [1/10, 9/10]]]

/-- Likelihood-weight matrix with state 0 at log-likelihood `0` and state 1 at
`-inf` at every one of `T` timesteps. -/
def likState0 (T : ℕ) : List Vec := [List.replicate T 1, List.replicate T 0]

/-- Likelihood-weight matrix with state 0 at `-inf` and state 1 at
log-likelihood `0` at every one of `T` timesteps. -/
def likState1 (T : ℕ) : List Vec := [List.replicate T 0, List.replicate T 1]

/-- Initial distribution fixed to state 0 for the alternating-chain test. -/
def gamma0C2 : Vec := [1, 0]

/-- The four time-varying transition matrices forcing strict alternation
except for one forced repeat at the third step. -/
def GsC2 : List Mat :=
  [[[0, 1], [1, 0]], [[0, 1], [1, 0]], [[1, 0], [0, 1]], [[0, 1], [1, 0]]]

/-- Likelihood weights of the alternating-chain test (`0.9`/`0.1` per state,
consistent with the sequence `[1, 0, 0, 1]`). -/
def likC2 : List Vec := [[1/10, 9/10, 1/10, 9/10], [9/10, 1/10, 9/10, 1/10]]

/-- A concrete valid random source used by the witnesses. -/
def rngHalf : RNG := fun _ => 1/2

/-- Row 0 of the 3×3 test matrix: the constant row `[0, 0, 1]`. -/
def rowC3_0 : RowExpr := .constRow [0, 0, 1]

/-- Row 1 of the 3×3 test matrix: the first Dirichlet vector scattered into
columns `[0, 2]` (the base being row 0, exactly as the test builds it). -/
def rowC3_1 : RowExpr := .scatter rowC3_0 [0, 2] (.leaf 0)

/-- Row 2 of the 3×3 test matrix: the second Dirichlet vector scattered into
columns `[1, 2]` (the base being row 1, exactly as the test builds it). -/
def rowC3_2 : RowExpr := .scatter rowC3_1 [1, 2] (.leaf 1)

/-- The assembled, broadcast 3×3 transition-matrix expression of the
subtensor test. -/
def exprC3 : MatExpr := .broadcastTo (.stackRows [rowC3_0, rowC3_1, rowC3_2])

/-- Concrete buffers for the out-parameter witness: a one-state chain over a
single timestep with uninitialized scratch and result arrays. -/
def bufC10 : FFBSBuffers := ⟨[1], [[[1]]], [[1]], [], []⟩

/-- The buffers after the `ffbs_step` call on `bufC10`. -/
def bufC10r : FFBSBuffers := ⟨[1], [[[1]]], [[1]], [[1]], [0]⟩

/-- A second concrete random source, agreeing with `rngHalf` on draw `0` only. -/
def rngAlt : RNG := fun n => if n = 0 then 1/2 else 0

/-- A concrete RowGroup entry used by the conjugate-draw witness. -/
def rgEntryW : RowGroupEntry := ⟨1, some [0, 2], [1, 1]⟩

/- ## Helper lemmas -/

theorem getD_replicate_q (n i : ℕ) (c : ℚ) (h : i < n) :
    (List.replicate n c).getD i 0 = c := by
  rw [List.getD_eq_getElem _ _ (by simpa using h)]
  simp

theorem getD_map_range (f : ℕ → ℚ) (K j : ℕ) :
    ((List.range K).map f).getD j 0 = if j < K then f j else 0 := by
  rcases lt_or_ge j K with hj | hj
  · rw [List.getD_eq_getElem _ _ (by simpa using hj), List.getElem_map,
      List.getElem_range, if_pos hj]
  · rw [List.getD_eq_default _ _ (by simpa using hj), if_neg (not_lt.mpr hj)]

theorem sum_map_div (v : Vec) (c : ℚ) : (v.map (· / c)).sum = v.sum / c := by
  induction v with
  | nil => simp
  | cons x xs ih => simp [ih, add_div]

theorem normalizeV_sum (v : Vec) (h : v.sum ≠ 0) : (normalizeV v).sum = 1 := by
  rw [normalizeV, sum_map_div, div_self h]

theorem normalizeV_length (v : Vec) : (normalizeV v).length = v.length :=
  List.length_map v _

theorem nonneg_sum (v : Vec) (h : nonnegV v) : 0 ≤ v.sum :=
  List.sum_nonneg h

theorem normalizeV_nonneg (v : Vec) (h : nonnegV v) : nonnegV (normalizeV v) := by
  intro x hx
  rw [normalizeV] at hx
  obtain ⟨y, hy, rfl⟩ := List.mem_map.mp hx
  exact div_nonneg (h y hy) (nonneg_sum v h)

theorem normalizeV_getD (v : Vec) (k : ℕ) (hk : k < v.length) :
    (normalizeV v).getD k 0 = v.getD k 0 / v.sum := by
  unfold normalizeV
  rw [List.getD_eq_getElem _ _ (by simpa using hk), List.getElem_map,
    List.getD_eq_getElem _ _ hk]

theorem catSampleAux_lt_and_pos :
    ∀ (ps : List ℚ) (u : ℚ), (∀ p ∈ ps, 0 ≤ p) → 0 ≤ u → u < ps.sum →
      catSampleAux ps u < ps.length ∧ 0 < ps.getD (catSampleAux ps u) 0 := by
  intro ps
  induction ps with
  | nil => intro u _ hu hlt; simp at hlt; exact absurd (lt_of_le_of_lt hu hlt) (lt_irrefl 0)
  | cons p ps ih =>
    intro u hnn hu hlt
    by_cases hcase : u < p
    · constructor
      · simp [catSampleAux, hcase]
      · simp only [catSampleAux, if_pos hcase, List.getD_cons_zero]
        exact lt_of_le_of_lt hu hcase
    · have hple : p ≤ u := not_lt.mp hcase
      have hrec := ih (u - p) (fun q hq => hnn q (List.mem_cons_of_mem _ hq))
        (sub_nonneg.mpr hple) (by rw [List.sum_cons] at hlt; linarith)
      constructor
      · simp only [catSampleAux, if_neg hcase, List.length_cons]
        omega
      · simpa only [catSampleAux, if_neg hcase, List.getD_cons_succ] using hrec.2

theorem catSample_lt_and_pos (w : Vec) (u : ℚ) (hw : nonnegV w) (hs : 0 < w.sum)
    (hu : 0 ≤ u) (hu1 : u < 1) :
    catSample w u < w.length ∧ 0 < w.getD (catSample w u) 0 := by
  have hn : nonnegV (normalizeV w) := normalizeV_nonneg w hw
  have hsum : (normalizeV w).sum = 1 := normalizeV_sum w hs.ne'
  have h := catSampleAux_lt_and_pos (normalizeV w) u hn hu (by rw [hsum]; exact hu1)
  rw [catSample]
  have hlen : catSampleAux (normalizeV w) u < w.length := by
    have := h.1; rwa [normalizeV_length] at this
  refine ⟨hlen, ?_⟩
  have hpos := h.2
  rw [normalizeV_getD w _ hlen] at hpos
  by_contra hle
  push_neg at hle
  have h0 : w.getD (catSampleAux (normalizeV w) u) 0 = 0 := by
    have hge : 0 ≤ w.getD (catSampleAux (normalizeV w) u) 0 := by
      rw [List.getD_eq_getElem _ _ (by simpa using hlen)]
      exact hw _ (List.getElem_mem _)
    linarith
  rw [h0, zero_div] at hpos
  exact lt_irrefl 0 hpos

theorem catSample_pair0 (c u : ℚ) (hc : 0 < c) (_h0 : 0 ≤ u) (h1 : u < 1) :
    catSample [c, 0] u = 0 := by
  have hn : normalizeV [c, 0] = [1, 0] := by
    simp [normalizeV, div_self hc.ne']
  rw [catSample, hn, catSampleAux, if_pos h1]

theorem catSample_pair1 (c u : ℚ) (hc : 0 < c) (h0 : 0 ≤ u) (h1 : u < 1) :
    catSample [0, c] u = 1 := by
  have hn : normalizeV [0, c] = [0, 1] := by
    simp [normalizeV, div_self hc.ne']
  rw [catSample, hn, catSampleAux, if_neg (not_lt.mpr h0)]
  rw [catSampleAux, sub_zero, if_pos h1]

theorem maxQ_nonneg (v : Vec) : 0 ≤ maxQ v := by
  induction v with
  | nil => exact le_refl 0
  | cons x xs ih => exact le_trans ih (le_max_right x (maxQ xs))

theorem shiftNorm_nonneg (v : Vec) (h : nonnegV v) : nonnegV (shiftNorm v) := by
  intro x hx
  obtain ⟨y, hy, rfl⟩ := List.mem_map.mp hx
  exact div_nonneg (h y hy) (maxQ_nonneg v)

theorem shiftNorm_length (v : Vec) : (shiftNorm v).length = v.length :=
  List.length_map v _

theorem likCol_nonneg (L : List Vec) (t : ℕ) (h : ∀ row ∈ L, nonnegV row) :
    nonnegV (likCol L t) := by
  intro x hx
  obtain ⟨row, hrow, rfl⟩ := List.mem_map.mp hx
  rcases lt_or_ge t row.length with ht | ht
  · rw [List.getD_eq_getElem _ _ (by simpa using ht)]
    exact h row hrow _ (List.getElem_mem _)
  · rw [List.getD_eq_default _ _ (by simpa using ht)]

theorem likCol_length (L : List Vec) (t : ℕ) : (likCol L t).length = L.length :=
  List.length_map L _

theorem zipMul_nonneg (x y : Vec) (hx : nonnegV x) (hy : nonnegV y) :
    nonnegV (zipMul x y) := by
  intro z hz
  rw [zipMul] at hz
  rw [List.mem_iff_getElem] at hz
  obtain ⟨i, hi, rfl⟩ := hz
  rw [List.getElem_zipWith]
  have hix : i < x.length := lt_of_lt_of_le hi (by simp [min_le_left])
  have hiy : i < y.length := lt_of_lt_of_le hi (by simp [min_le_right])
  exact mul_nonneg (hx _ (List.getElem_mem hix)) (hy _ (List.getElem_mem hiy))

theorem zipMul_length (x y : Vec) : (zipMul x y).length = min x.length y.length :=
  List.length_zipWith _ x y

theorem zipMul_getD (x y : Vec) (k : ℕ) (hk : k < (zipMul x y).length) :
    (zipMul x y).getD k 0 = x.getD k 0 * y.getD k 0 := by
  have hx : k < x.length := by rw [zipMul_length] at hk; omega
  have hy : k < y.length := by rw [zipMul_length] at hk; omega
  rw [List.getD_eq_getElem _ _ (by simpa using hk),
    List.getD_eq_getElem _ _ hx, List.getD_eq_getElem _ _ hy]
  exact List.getElem_zipWith

theorem oneHotV_length (K j : ℕ) (c : ℚ) : (oneHotV K j c).length = K := by
  simp [oneHotV]

theorem oneHotV_sum_eq (K j : ℕ) (c : ℚ) :
    (oneHotV K j c).sum = if j < K then c else 0 := by
  induction K with
  | zero => simp [oneHotV]
  | succ n ih =>
    rw [oneHotV, List.range_succ, List.map_append, List.sum_append]
    have h1 : ((List.range n).map (fun i => if j = i then c else 0)).sum
        = if j < n then c else 0 := ih
    rw [h1]
    by_cases hjn : j = n
    · subst hjn
      rw [if_neg (lt_irrefl j), if_pos (by omega)]
      simp
    · by_cases hlt : j < n
      · rw [if_pos hlt, if_pos (by omega)]
        simp [hjn]
      · rw [if_neg hlt, if_neg (by omega)]
        simp [hjn]

theorem normalizeV_oneHot (K j : ℕ) (c : ℚ) (hj : j < K) (hc : 0 < c) :
    normalizeV (oneHotV K j c) = oneHotV K j 1 := by
  rw [normalizeV, oneHotV_sum_eq, if_pos hj, oneHotV, oneHotV, List.map_map]
  refine List.map_congr_left ?_
  intro i _
  by_cases hji : j = i
  · simp [hji, div_self hc.ne']
  · simp [hji]

theorem catSampleAux_oneHot (K j : ℕ) (u : ℚ) (hj : j < K) (h0 : 0 ≤ u) (h1 : u < 1) :
    catSampleAux (oneHotV K j 1) u = j := by
  induction K generalizing j u with
  | zero => omega
  | succ n ih =>
    rw [oneHotV, List.range_succ_eq_map, List.map_cons, List.map_map]
    cases j with
    | zero =>
      rw [if_pos rfl]
      simp only [catSampleAux, if_pos h1]
    | succ m =>
      rw [if_neg (by omega)]
      simp only [catSampleAux, if_neg (not_lt.mpr h0), sub_zero]
      have hmap : (List.range n).map ((fun i => if m + 1 = i then (1 : ℚ) else 0) ∘ Nat.succ)
          = oneHotV n m 1 := by
        rw [oneHotV]
        refine List.map_congr_left ?_
        intro i _
        simp [Function.comp, Nat.succ_eq_add_one]
      rw [hmap, ih m u (by omega) h0 h1]

theorem getD_oneHotV (K j i : ℕ) (c : ℚ) :
    (oneHotV K j c).getD i 0 = if i < K ∧ j = i then c else 0 := by
  rw [oneHotV, getD_map_range]
  by_cases hi : i < K
  · by_cases hji : j = i
    · simp [hi, hji]
    · simp [hi, hji]
  · simp [hi]

theorem zipMul_basis (a : Vec) (K j : ℕ) (ha : a.length = K) :
    zipMul a (basisV K j) = oneHotV K j (a.getD j 0) := by
  have hlb : (basisV K j).length = K := by simp [basisV]
  have hl : (zipMul a (basisV K j)).length = K := by
    rw [zipMul_length, ha, hlb, min_self]
  refine List.ext_getElem (by rw [hl, oneHotV_length]) ?_
  intro i hi1 hi2
  have hiK : i < K := by rwa [hl] at hi1
  simp only [zipMul, oneHotV, basisV, List.getElem_zipWith, List.getElem_map,
    List.getElem_range]
  by_cases hji : j = i
  · simp only [if_pos hji, mul_one]
    subst hji
    rw [List.getD_eq_getElem _ _ (show j < a.length by omega)]
  · simp only [if_neg hji, mul_zero]

theorem catSample_scaled_oneHot (K j : ℕ) (c u : ℚ) (hj : j < K) (hc : 0 < c)
    (h0 : 0 ≤ u) (h1 : u < 1) : catSample (oneHotV K j c) u = j := by
  rw [catSample, normalizeV_oneHot K j c hj hc, catSampleAux_oneHot K j u hj h0 h1]

theorem dotL_replicate_zero (v : Vec) : ∀ n, dotL v (List.replicate n 0) = 0 := by
  induction v with
  | nil => intro n; simp [dotL]
  | cons x xs ih =>
    intro n
    cases n with
    | zero => simp [dotL]
    | succ m =>
      rw [List.replicate_succ, dotL, List.zipWith_cons_cons, List.sum_cons, mul_zero, zero_add]
      exact ih m

theorem dotL_basis (v : Vec) : ∀ (K i : ℕ), v.length = K → dotL v (basisV K i) = v.getD i 0 := by
  induction v with
  | nil =>
    intro K i hv
    subst hv
    simp [dotL, basisV]
  | cons x xs ih =>
    intro K i hv
    subst hv
    rw [basisV, List.length_cons, List.range_succ_eq_map, List.map_cons, List.map_map]
    cases i with
    | zero =>
      rw [if_pos rfl, dotL, List.zipWith_cons_cons, List.sum_cons, mul_one]
      have hz : (List.range xs.length).map ((fun j => if 0 = j then (1 : ℚ) else 0) ∘ Nat.succ)
          = List.replicate xs.length 0 := by
        rw [List.eq_replicate_iff]
        refine ⟨by simp, ?_⟩
        intro b hb
        obtain ⟨y, _, rfl⟩ := List.mem_map.mp hb
        simp [Function.comp]
      rw [hz]
      have := dotL_replicate_zero xs xs.length
      rw [dotL] at this
      rw [this, add_zero, List.getD_cons_zero]
    | succ m =>
      rw [if_neg (by omega), dotL, List.zipWith_cons_cons, List.sum_cons, mul_zero, zero_add]
      have hmap : (List.range xs.length).map ((fun j => if m + 1 = j then (1 : ℚ) else 0) ∘ Nat.succ)
          = basisV xs.length m := by
        rw [basisV]
        refine List.map_congr_left ?_
        intro q _
        simp [Function.comp]
      rw [hmap]
      have := ih xs.length m rfl
      rw [dotL] at this
      rw [this, List.getD_cons_succ]

theorem colOf_idMat (K j : ℕ) : colOf (idMat K) j = basisV K j := by
  rw [colOf, idMat, List.map_map, basisV]
  refine List.map_congr_left ?_
  intro i hi
  rw [List.mem_range] at hi
  simp only [Function.comp]
  rw [basisV, getD_map_range]
  by_cases hj : j < K
  · rw [if_pos hj]
    by_cases hij : i = j
    · rw [if_pos hij, if_pos hij.symm]
    · rw [if_neg hij, if_neg (fun h => hij h.symm)]
  · rw [if_neg hj, if_neg (by omega)]

theorem nColsOf_idMat (K : ℕ) : nColsOf (idMat K) = K := by
  cases K with
  | zero => simp [nColsOf, idMat]
  | succ n =>
    rw [nColsOf, idMat, List.range_succ_eq_map, List.map_cons, List.headD_cons, basisV]
    simp

theorem getD_range_map_self (v : Vec) :
    (List.range v.length).map (fun k => v.getD k 0) = v := by
  induction v with
  | nil => simp
  | cons x xs ih =>
    rw [List.length_cons, List.range_succ_eq_map, List.map_cons, List.map_map,
      List.getD_cons_zero]
    have hfun : ((fun k => (x :: xs).getD k 0) ∘ Nat.succ) = (fun k => xs.getD k 0) := by
      funext k
      simp [Function.comp]
    rw [hfun, ih]

theorem matVecL_idMat (v : Vec) (K : ℕ) (hv : v.length = K) : matVecL v (idMat K) = v := by
  rw [matVecL, nColsOf_idMat]
  have hcong : (List.range K).map (fun k => dotL v (colOf (idMat K) k))
      = (List.range K).map (fun k => v.getD k 0) := by
    refine List.map_congr_left ?_
    intro k _
    rw [colOf_idMat, dotL_basis v K k hv]
  rw [hcong, ← hv, getD_range_map_self]

theorem getG_single (M : Mat) (t : ℕ) : getG [M] t = M := by
  simp [getG]

theorem rawAlpha_id (K : ℕ) (L : List Vec) (prev : Vec) (t : ℕ) (h : prev.length = K) :
    rawAlpha [idMat K] L prev t = zipMul prev (shiftNorm (likCol L t)) := by
  rw [rawAlpha, getG_single, matVecL_idMat prev K h]

theorem forwardAux_length (Gs : List Mat) (L : List Vec) :
    ∀ (n : ℕ) (prev : Vec) (t : ℕ) (as : List Vec),
      forwardAux Gs L prev t n = .ok as → as.length = n := by
  intro n
  induction n with
  | zero => intro prev t as h; simp only [forwardAux] at h; cases h; rfl
  | succ m ih =>
    intro prev t as h
    simp only [forwardAux] at h
    by_cases hs : (rawAlpha Gs L prev t).sum = 0
    · rw [if_pos hs] at h; cases h
    · rw [if_neg hs] at h
      cases hrec : forwardAux Gs L (normalizeV (rawAlpha Gs L prev t)) (t + 1) m with
      | error e => rw [hrec] at h; cases h
      | ok rest =>
        rw [hrec] at h
        cases h
        simp [ih _ _ _ hrec]

theorem collapsedFrom_error (Gs : List Mat) (L : List Vec) :
    ∀ (n : ℕ) (prev : Vec) (t : ℕ), collapsedFrom Gs L prev t n = true →
      forwardAux Gs L prev t n = .error () := by
  intro n
  induction n with
  | zero => intro prev t h; simp [collapsedFrom] at h
  | succ m ih =>
    intro prev t h
    simp only [collapsedFrom, Bool.or_eq_true, decide_eq_true_eq] at h
    simp only [forwardAux]
    rcases h with h | h
    · rw [if_pos h]
    · by_cases hs : (rawAlpha Gs L prev t).sum = 0
      · rw [if_pos hs]
      · rw [if_neg hs, ih _ _ h]
        rfl

theorem goodChain_mem (K : ℕ) :
    ∀ (as : List Vec) (p : Vec), goodChain K p as →
      ∀ a ∈ as, nonnegV a ∧ a.sum = 1 ∧ a.length = K := by
  intro as
  induction as with
  | nil => intro p _ a ha; cases ha
  | cons b rest ih =>
    intro p hg a ha
    obtain ⟨⟨h1, h2, h3, _⟩, hrest⟩ := hg
    rcases List.mem_cons.mp ha with rfl | ha
    · exact ⟨h1, h2, h3⟩
    · exact ih b hrest a ha

theorem goodChain_pos (K s : ℕ) :
    ∀ (as : List Vec) (p : Vec), goodChain K p as →
      ∀ b, as.getLast? = some b → 0 < b.getD s 0 → ∀ a ∈ as, 0 < a.getD s 0 := by
  intro as
  induction as with
  | nil => intro p _ b hb; cases hb
  | cons a rest ih =>
    intro p hg b hb hpos c hc
    obtain ⟨⟨_, _, _, _⟩, hrest⟩ := hg
    cases rest with
    | nil =>
      simp only [List.getLast?_singleton, Option.some.injEq] at hb
      subst hb
      rcases List.mem_singleton.mp hc with rfl
      exact hpos
    | cons a2 rest2 =>
      have hb2 : (a2 :: rest2).getLast? = some b := by
        rwa [List.getLast?_cons_cons] at hb
      have hall : ∀ x ∈ a2 :: rest2, 0 < x.getD s 0 := ih a hrest b hb2 hpos
      rcases List.mem_cons.mp hc with rfl | hc
      · obtain ⟨⟨_, _, _, hsupp⟩, _⟩ := hrest
        exact hsupp s (hall a2 (List.mem_cons_self a2 rest2))
      · exact hall c hc

theorem forwardAux_id_chain (K : ℕ) (L : List Vec) (hL : L.length = K)
    (hLn : ∀ row ∈ L, nonnegV row) :
    ∀ (n : ℕ) (prev : Vec) (t : ℕ) (as : List Vec),
      prev.length = K → nonnegV prev →
      forwardAux [idMat K] L prev t n = .ok as → goodChain K prev as := by
  intro n
  induction n with
  | zero =>
    intro prev t as _ _ h
    simp only [forwardAux] at h
    cases h
    trivial
  | succ m ih =>
    intro prev t as hlen hnn h
    simp only [forwardAux] at h
    by_cases hs : (rawAlpha [idMat K] L prev t).sum = 0
    · rw [if_pos hs] at h; cases h
    · rw [if_neg hs] at h
      cases hrec : forwardAux [idMat K] L (normalizeV (rawAlpha [idMat K] L prev t)) (t + 1) m with
      | error e => rw [hrec] at h; cases h
      | ok rest =>
        rw [hrec] at h
        cases h
        set raw := rawAlpha [idMat K] L prev t with hraw
        have hraweq : raw = zipMul prev (shiftNorm (likCol L t)) := rawAlpha_id K L prev t hlen
        have hrawnn : nonnegV raw := by
          rw [hraweq]
          exact zipMul_nonneg _ _ hnn (shiftNorm_nonneg _ (likCol_nonneg L t hLn))
        have hrawlen : raw.length = K := by
          rw [hraweq, zipMul_length, shiftNorm_length, likCol_length, hL, hlen, min_self]
        have hsumpos : 0 < raw.sum := lt_of_le_of_ne (nonneg_sum raw hrawnn) (Ne.symm hs)
        have hann : nonnegV (normalizeV raw) := normalizeV_nonneg raw hrawnn
        have hasum : (normalizeV raw).sum = 1 := normalizeV_sum raw hs
        have halen : (normalizeV raw).length = K := by rw [normalizeV_length, hrawlen]
        have hsupp : suppLe prev (normalizeV raw) := by
          intro k hk
          by_cases hkl : k < (normalizeV raw).length
          · rw [normalizeV_getD raw k (by rwa [normalizeV_length] at hkl)] at hk
            have hrk : 0 < raw.getD k 0 := by
              by_contra hle
              push_neg at hle
              have hge : 0 ≤ raw.getD k 0 := by
                rw [List.getD_eq_getElem _ _ (by rw [normalizeV_length] at hkl; simpa using hkl)]
                exact hrawnn _ (List.getElem_mem _)
              have h0 : raw.getD k 0 = 0 := le_antisymm hle hge
              rw [h0, zero_div] at hk
              exact lt_irrefl 0 hk
            have hkraw : k < raw.length := by rwa [normalizeV_length] at hkl
            rw [hraweq, zipMul_getD _ _ _ (by rw [← hraweq]; exact hkraw)] at hrk
            by_contra hple
            push_neg at hple
            have hpk : prev.getD k 0 = 0 := by
              rcases lt_or_ge k prev.length with hkp | hkp
              · refine le_antisymm hple ?_
                rw [List.getD_eq_getElem _ _ hkp]
                exact hnn _ (List.getElem_mem _)
              · exact List.getD_eq_default _ _ hkp
            rw [hpk, zero_mul] at hrk
            exact lt_irrefl 0 hrk
          · rw [List.getD_eq_default _ _ (le_of_not_lt hkl)] at hk
            exact absurd hk (lt_irrefl 0)
        exact ⟨⟨hann, hasum, halen, hsupp⟩, ih (normalizeV raw) (t + 1) rest halen hann hrec⟩

theorem bwdAux_const (K : ℕ) (rng : RNG) (hr : validRNG rng) (s : ℕ) (hs : s < K) :
    ∀ (revA : List Vec) (tnext d : ℕ),
      (∀ a ∈ revA, nonnegV a ∧ a.length = K ∧ 0 < a.getD s 0) →
      bwdAux [idMat K] rng revA tnext s d = List.replicate revA.length s := by
  intro revA
  induction revA with
  | nil => intro tnext d _; rfl
  | cons a rest ih =>
    intro tnext d hmem
    obtain ⟨hann, halen, hapos⟩ := hmem a (List.mem_cons_self a rest)
    have hw : zipMul a (colOf (getG [idMat K] tnext) s) = oneHotV K s (a.getD s 0) := by
      rw [getG_single, colOf_idMat, zipMul_basis a K s halen]
    have hcs : catSample (zipMul a (colOf (getG [idMat K] tnext) s)) (rng d) = s := by
      rw [hw]
      exact catSample_scaled_oneHot K s _ (rng d) hs hapos (hr d).1 (hr d).2
    simp only [bwdAux, hcs]
    rw [ih (tnext - 1) (d + 1) (fun x hx => hmem x (List.mem_cons_of_mem a hx))]
    rfl

theorem getD_replicate_nat (n i c : ℕ) (h : i < n) :
    (List.replicate n c).getD i 0 = c := by
  rw [List.getD_eq_getElem _ _ (by simpa using h)]
  simp

theorem backwardPass_nil (Gs : List Mat) (alphas : List Vec) (rng : RNG)
    (h : alphas.reverse = []) : backwardPass Gs alphas rng = [] := by
  rw [backwardPass.eq_def, h]

theorem backwardPass_cons (Gs : List Mat) (alphas : List Vec) (aLast : Vec)
    (restRev : List Vec) (rng : RNG) (h : alphas.reverse = aLast :: restRev) :
    backwardPass Gs alphas rng
      = (catSample aLast (rng 0)
          :: bwdAux Gs rng restRev (alphas.length - 1) (catSample aLast (rng 0)) 1).reverse := by
  rw [backwardPass.eq_def, h]

theorem rngHalf_valid : validRNG rngHalf := by
  intro n
  constructor <;> norm_num [rngHalf]

/- ## Claim theorems -/

/-- C9: with the identity transition matrix at every timestep (and a
nondegenerate run of the forward pass), the FFBS output sequence is constant:
every entry equals the entry at time 0 — the degenerate round-trip holds for
every sequence length and every state of the random source. -/
theorem claim_C9_identity_roundtrip (K : ℕ) (pi0 : Vec) (L : List Vec) (rng : RNG)
    (res : List ℕ) (i : ℕ)
    (hr : validRNG rng) (hp : pi0.length = K) (hpn : nonnegV pi0)
    (hL : L.length = K) (hLn : ∀ row ∈ L, nonnegV row)
    (hok : ffbsSeq pi0 [idMat K] L rng = .ok res) (hi : i < res.length) :
    res.getD i 0 = res.getD 0 0 := by
  rw [ffbsSeq] at hok
  cases hf : forwardAux [idMat K] L pi0 0 (numT L) with
  | error e => rw [hf] at hok; cases hok
  | ok as =>
    rw [hf] at hok
    simp only [Except.map] at hok
    obtain rfl : backwardPass [idMat K] as rng = res := by
      injection hok
    have hchain : goodChain K pi0 as := forwardAux_id_chain K L hL hLn _ pi0 0 as hp hpn hf
    cases hrev : as.reverse with
    | nil =>
      rw [backwardPass_nil [idMat K] as rng hrev] at hi
      simp at hi
    | cons aLast restRev =>
      have hB := backwardPass_cons [idMat K] as aLast restRev rng hrev
      have hmemLast : aLast ∈ as :=
        List.mem_reverse.mp (by rw [hrev]; exact List.mem_cons_self _ _)
      obtain ⟨hlnn, hlsum, hllen⟩ := goodChain_mem K as pi0 hchain aLast hmemLast
      have hcs := catSample_lt_and_pos aLast (rng 0) hlnn (by rw [hlsum]; norm_num)
        (hr 0).1 (hr 0).2
      have hsK : catSample aLast (rng 0) < K := by rw [← hllen]; exact hcs.1
      have hsPos : 0 < aLast.getD (catSample aLast (rng 0)) 0 := hcs.2
      have hlast : as.getLast? = some aLast := by
        rw [← List.head?_reverse, hrev]
        rfl
      have hposAll : ∀ a ∈ as, 0 < a.getD (catSample aLast (rng 0)) 0 :=
        goodChain_pos K _ as pi0 hchain aLast hlast hsPos
      have hbwd : bwdAux [idMat K] rng restRev (as.length - 1) (catSample aLast (rng 0)) 1
          = List.replicate restRev.length (catSample aLast (rng 0)) := by
        refine bwdAux_const K rng hr _ hsK restRev _ _ ?_
        intro a ha
        have hamem : a ∈ as :=
          List.mem_reverse.mp (by rw [hrev]; exact List.mem_cons_of_mem _ ha)
        obtain ⟨h1, _, h3⟩ := goodChain_mem K as pi0 hchain a hamem
        exact ⟨h1, h3, hposAll a hamem⟩
      rw [hB, hbwd, ← List.replicate_succ, List.reverse_replicate] at hi ⊢
      rw [List.length_replicate] at hi
      rw [getD_replicate_nat _ _ _ hi, getD_replicate_nat _ _ _ (by omega)]

/-- Evaluation of the FFBS routine on a concrete one-state identity chain
over two timesteps. -/
theorem ffbsSeq_id_eval : ffbsSeq [1] [idMat 1] [[1, 1]] rngHalf = .ok [0, 0] := by
  have hm : maxQ [(1 : ℚ)] = 1 := by
    simp only [maxQ, List.foldr]
    rw [max_eq_left (by norm_num : (0 : ℚ) ≤ 1)]
  have hfwd : forwardAux [idMat 1] [[1, 1]] [1] 0 (numT [[1, 1]]) = .ok [[1], [1]] := by
    norm_num [forwardAux, numT, rawAlpha, getG, idMat, basisV, matVecL, nColsOf, colOf,
      dotL, likCol, shiftNorm, hm, zipMul, normalizeV, List.range_succ, Except.map]
  have hcs : catSample [(1 : ℚ)] (1/2) = 0 := by
    norm_num [catSample, normalizeV, catSampleAux]
  have hrev : ([[1], [1]] : List Vec).reverse = [1] :: [[1]] := by rfl
  have hb : bwdAux [idMat 1] rngHalf [[1]] (([[1], [1]] : List Vec).length - 1) 0 1 = [0] := by
    norm_num [bwdAux, getG, idMat, basisV, colOf, zipMul, catSample, normalizeV,
      catSampleAux, rngHalf, List.range_succ]
  rw [ffbsSeq, hfwd]
  simp only [Except.map]
  rw [backwardPass_cons [idMat 1] [[1], [1]] [1] [[1]] rngHalf hrev]
  rw [show rngHalf 0 = 1/2 from rfl, hcs, hb]
  rfl

/-- Witness for C9 at a concrete one-state chain over two timesteps. -/
theorem claim_C9_identity_roundtrip_witness :
    ffbsSeq [1] [idMat 1] [[1, 1]] rngHalf = .ok [0, 0]
      ∧ ([0, 0] : List ℕ).getD 1 0 = ([0, 0] : List ℕ).getD 0 0 := by
  refine ⟨ffbsSeq_id_eval, ?_⟩
  exact claim_C9_identity_roundtrip 1 [1] [[1, 1]] rngHalf [0, 0] 1 rngHalf_valid rfl
    (by decide) rfl (by decide) ffbsSeq_id_eval (by decide)

theorem rawAlpha_C1_0 (T t : ℕ) (ht : t < T) (a b : ℚ) :
    rawAlpha GsC1 (likState0 T) [a, b] t = [9/10 * a + 1/10 * b, 0] := by
  have hG : getG GsC1 t = [[9/10, 1/10], [1/10, 9/10]] := by simp [GsC1, getG]
  have hlik : likCol (likState0 T) t = [1, 0] := by
    simp only [likState0, likCol, List.map_cons, List.map_nil]
    rw [getD_replicate_q T t 1 ht, getD_replicate_q T t 0 ht]
  have hm : maxQ [(1 : ℚ), 0] = 1 := by
    simp only [maxQ, List.foldr]
    rw [max_self, max_eq_left (by norm_num : (0 : ℚ) ≤ 1)]
  rw [rawAlpha, hG, hlik]
  norm_num [shiftNorm, hm, matVecL, nColsOf, colOf, dotL, zipMul, List.range_succ]
  ring

theorem rawAlpha_C1_1 (T t : ℕ) (ht : t < T) (a b : ℚ) :
    rawAlpha GsC1 (likState1 T) [a, b] t = [0, 1/10 * a + 9/10 * b] := by
  have hG : getG GsC1 t = [[9/10, 1/10], [1/10, 9/10]] := by simp [GsC1, getG]
  have hlik : likCol (likState1 T) t = [0, 1] := by
    simp only [likState1, likCol, List.map_cons, List.map_nil]
    rw [getD_replicate_q T t 0 ht, getD_replicate_q T t 1 ht]
  have hm : maxQ [(0 : ℚ), 1] = 1 := by
    simp only [maxQ, List.foldr]
    rw [max_eq_left (by norm_num : (0 : ℚ) ≤ 1), max_eq_right (by norm_num : (0 : ℚ) ≤ 1)]
  rw [rawAlpha, hG, hlik]
  norm_num [shiftNorm, hm, matVecL, nColsOf, colOf, dotL, zipMul, List.range_succ]
  ring

theorem forwardAux_C1_0 (T : ℕ) :
    ∀ (n t : ℕ) (a b : ℚ), 0 < a → 0 ≤ b → (∀ j, j < n → t + j < T) →
      forwardAux GsC1 (likState0 T) [a, b] t n = .ok (List.replicate n [1, 0]) := by
  intro n
  induction n with
  | zero => intro t a b _ _ _; rfl
  | succ m ih =>
    intro t a b ha hb hran
    have ht : t < T := by have := hran 0 (by omega); omega
    have hraw := rawAlpha_C1_0 T t ht a b
    have hc : (0 : ℚ) < 9/10 * a + 1/10 * b := by linarith
    have hsum : (rawAlpha GsC1 (likState0 T) [a, b] t).sum ≠ 0 := by
      rw [hraw]
      simp only [List.sum_cons, List.sum_nil, add_zero]
      exact hc.ne'
    have hnorm : normalizeV (rawAlpha GsC1 (likState0 T) [a, b] t) = [1, 0] := by
      rw [hraw]
      simp only [normalizeV, List.sum_cons, List.sum_nil, add_zero, List.map_cons, List.map_nil]
      rw [div_self hc.ne', zero_div]
    simp only [forwardAux]
    rw [if_neg hsum, hnorm,
      ih (t + 1) 1 0 one_pos le_rfl (fun j hj => by have := hran (j + 1) (by omega); omega)]
    rfl

theorem forwardAux_C1_1 (T : ℕ) :
    ∀ (n t : ℕ) (a b : ℚ), 0 ≤ a → 0 < b → (∀ j, j < n → t + j < T) →
      forwardAux GsC1 (likState1 T) [a, b] t n = .ok (List.replicate n [0, 1]) := by
  intro n
  induction n with
  | zero => intro t a b _ _ _; rfl
  | succ m ih =>
    intro t a b ha hb hran
    have ht : t < T := by have := hran 0 (by omega); omega
    have hraw := rawAlpha_C1_1 T t ht a b
    have hc : (0 : ℚ) < 1/10 * a + 9/10 * b := by linarith
    have hsum : (rawAlpha GsC1 (likState1 T) [a, b] t).sum ≠ 0 := by
      rw [hraw]
      simp only [List.sum_cons, List.sum_nil, add_zero, zero_add]
      exact hc.ne'
    have hnorm : normalizeV (rawAlpha GsC1 (likState1 T) [a, b] t) = [0, 1] := by
      rw [hraw]
      simp only [normalizeV, List.sum_cons, List.sum_nil, add_zero, zero_add,
        List.map_cons, List.map_nil]
      rw [div_self hc.ne', zero_div]
    simp only [forwardAux]
    rw [if_neg hsum, hnorm,
      ih (t + 1) 0 1 le_rfl one_pos (fun j hj => by have := hran (j + 1) (by omega); omega)]
    rfl

theorem bwd_C1_0 (rng : RNG) (hr : validRNG rng) :
    ∀ (m tnext d : ℕ),
      bwdAux GsC1 rng (List.replicate m [1, 0]) tnext 0 d = List.replicate m 0 := by
  intro m
  induction m with
  | zero => intro tnext d; rfl
  | succ k ih =>
    intro tnext d
    have hw : zipMul [1, 0] (colOf (getG GsC1 tnext) 0) = [9/10, 0] := by
      have hG : getG GsC1 tnext = [[9/10, 1/10], [1/10, 9/10]] := by simp [GsC1, getG]
      rw [hG]
      norm_num [zipMul, colOf]
    rw [List.replicate_succ]
    simp only [bwdAux]
    rw [hw, catSample_pair0 (9/10) (rng d) (by norm_num) (hr d).1 (hr d).2, ih]
    rfl

theorem bwd_C1_1 (rng : RNG) (hr : validRNG rng) :
    ∀ (m tnext d : ℕ),
      bwdAux GsC1 rng (List.replicate m [0, 1]) tnext 1 d = List.replicate m 1 := by
  intro m
  induction m with
  | zero => intro tnext d; rfl
  | succ k ih =>
    intro tnext d
    have hw : zipMul [0, 1] (colOf (getG GsC1 tnext) 1) = [0, 9/10] := by
      have hG : getG GsC1 tnext = [[9/10, 1/10], [1/10, 9/10]] := by simp [GsC1, getG]
      rw [hG]
      norm_num [zipMul, colOf]
    rw [List.replicate_succ]
    simp only [bwdAux]
    rw [hw, catSample_pair1 (9/10) (rng d) (by norm_num) (hr d).1 (hr d).2, ih]
    rfl

theorem backward_C1_0 (T : ℕ) (rng : RNG) (hr : validRNG rng) :
    backwardPass GsC1 (List.replicate T [1, 0]) rng = List.replicate T 0 := by
  cases T with
  | zero => rfl
  | succ m =>
    have hrev : (List.replicate (m + 1) ([1, 0] : Vec)).reverse
        = [1, 0] :: List.replicate m [1, 0] := by
      rw [List.reverse_replicate, List.replicate_succ]
    rw [backwardPass_cons GsC1 _ [1, 0] (List.replicate m [1, 0]) rng hrev]
    rw [catSample_pair0 1 (rng 0) one_pos (hr 0).1 (hr 0).2]
    rw [bwd_C1_0 rng hr m ((List.replicate (m + 1) ([1, 0] : Vec)).length - 1) 1]
    rw [← List.replicate_succ, List.reverse_replicate]

theorem backward_C1_1 (T : ℕ) (rng : RNG) (hr : validRNG rng) :
    backwardPass GsC1 (List.replicate T [0, 1]) rng = List.replicate T 1 := by
  cases T with
  | zero => rfl
  | succ m =>
    have hrev : (List.replicate (m + 1) ([0, 1] : Vec)).reverse
        = [0, 1] :: List.replicate m [0, 1] := by
      rw [List.reverse_replicate, List.replicate_succ]
    rw [backwardPass_cons GsC1 _ [0, 1] (List.replicate m [0, 1]) rng hrev]
    rw [catSample_pair1 1 (rng 0) one_pos (hr 0).1 (hr 0).2]
    rw [bwd_C1_1 rng hr m ((List.replicate (m + 1) ([0, 1] : Vec)).length - 1) 1]
    rw [← List.replicate_succ, List.reverse_replicate]

/-- C1: for the two-state chain with the single static transition matrix, a
state whose log-likelihood is `-inf` at every timestep is never sampled:
for every length `T` and every valid state of the random source the FFBS
routine returns the favored state at all `T` timesteps, in both the
state-0-favored and the state-1-favored configurations; and the categorical
sampler resolves the resulting exact-zero (one-hot) weight vectors without
division by zero, always selecting the positive component. -/
theorem claim_C1_absorbing_state (T : ℕ) (rng : RNG) (c u : ℚ)
    (hr : validRNG rng) (hc : 0 < c) (hu0 : 0 ≤ u) (hu1 : u < 1) :
    ffbsSeq gamma0C1 GsC1 (likState0 T) rng = .ok (List.replicate T 0)
      ∧ ffbsSeq gamma0C1 GsC1 (likState1 T) rng = .ok (List.replicate T 1)
      ∧ catSample [c, 0] u = 0 ∧ catSample [0, c] u = 1 := by
  refine ⟨?_, ?_, catSample_pair0 c u hc hu0 hu1, catSample_pair1 c u hc hu0 hu1⟩
  · have hT : numT (likState0 T) = T := by simp [numT, likState0]
    have hfwd : forwardAux GsC1 (likState0 T) gamma0C1 0 T = .ok (List.replicate T [1, 0]) := by
      show forwardAux GsC1 (likState0 T) [1/2, 1/2] 0 T = _
      exact forwardAux_C1_0 T T 0 (1/2) (1/2) (by norm_num) (by norm_num) (fun j hj => by omega)
    rw [ffbsSeq, hT, hfwd]
    simp only [Except.map]
    rw [backward_C1_0 T rng hr]
  · have hT : numT (likState1 T) = T := by simp [numT, likState1]
    have hfwd : forwardAux GsC1 (likState1 T) gamma0C1 0 T = .ok (List.replicate T [0, 1]) := by
      show forwardAux GsC1 (likState1 T) [1/2, 1/2] 0 T = _
      exact forwardAux_C1_1 T T 0 (1/2) (1/2) (by norm_num) (by norm_num) (fun j hj => by omega)
    rw [ffbsSeq, hT, hfwd]
    simp only [Except.map]
    rw [backward_C1_1 T rng hr]

/-- Witness for C1 at `T = 2` with the constant one-half random source. -/
theorem claim_C1_absorbing_state_witness :
    ffbsSeq gamma0C1 GsC1 (likState0 2) rngHalf = .ok (List.replicate 2 0)
      ∧ ffbsSeq gamma0C1 GsC1 (likState1 2) rngHalf = .ok (List.replicate 2 1)
      ∧ catSample [1/2, 0] (1/2) = 0 ∧ catSample [0, 1/2] (1/2) = 1 :=
  claim_C1_absorbing_state 2 rngHalf (1/2) (1/2) rngHalf_valid (by norm_num)
    (by norm_num) (by norm_num)

/-- C2: for the four time-varying transition matrices forcing strict
alternation except one forced repeat at the third step, with likelihoods
consistent with the sequence `[1, 0, 0, 1]` and the initial distribution
fixed to state 0, the FFBS routine returns exactly `[1, 0, 0, 1]` for every
valid state of the random source. -/
theorem claim_C2_alternating (rng : RNG) (hr : validRNG rng) :
    ffbsSeq gamma0C2 GsC2 likC2 rng = .ok [1, 0, 0, 1] := by
  have hmax1 : maxQ [(1 : ℚ)/10, 9/10] = 9/10 := by
    simp only [maxQ, List.foldr]
    rw [max_eq_left (by norm_num : (0 : ℚ) ≤ 9/10),
      max_eq_right (by norm_num : (1 : ℚ)/10 ≤ 9/10)]
  have hmax2 : maxQ [(9 : ℚ)/10, 1/10] = 9/10 := by
    simp only [maxQ, List.foldr]
    rw [max_eq_left (by norm_num : (0 : ℚ) ≤ 1/10),
      max_eq_left (by norm_num : (1 : ℚ)/10 ≤ 9/10)]
  have hfwd : forwardAux GsC2 likC2 gamma0C2 0 (numT likC2)
      = .ok [[0, 1], [1, 0], [1, 0], [0, 1]] := by
    norm_num [forwardAux, numT, rawAlpha, GsC2, likC2, gamma0C2, getG, likCol, shiftNorm,
      hmax1, hmax2, zipMul, matVecL, nColsOf, colOf, dotL, normalizeV, List.range_succ,
      Except.map]
  rw [ffbsSeq, hfwd]
  simp only [Except.map]
  rw [backwardPass_cons GsC2 [[0, 1], [1, 0], [1, 0], [0, 1]] [0, 1]
    [[1, 0], [1, 0], [0, 1]] rng (by rfl)]
  rw [show (([[0, 1], [1, 0], [1, 0], [0, 1]] : List Vec).length - 1) = 3 from rfl]
  rw [catSample_pair1 1 (rng 0) one_pos (hr 0).1 (hr 0).2]
  have hw1 : zipMul [(1 : ℚ), 0] (colOf (getG GsC2 3) 1) = [1, 0] := by
    norm_num [GsC2, getG, colOf, zipMul]
  have hstep1 : bwdAux GsC2 rng [[1, 0], [1, 0], [0, 1]] 3 1 1
      = catSample (zipMul [(1 : ℚ), 0] (colOf (getG GsC2 3) 1)) (rng 1)
        :: bwdAux GsC2 rng [[1, 0], [0, 1]] 2
            (catSample (zipMul [(1 : ℚ), 0] (colOf (getG GsC2 3) 1)) (rng 1)) 2 := rfl
  rw [hstep1, hw1, catSample_pair0 1 (rng 1) one_pos (hr 1).1 (hr 1).2]
  have hw2 : zipMul [(1 : ℚ), 0] (colOf (getG GsC2 2) 0) = [1, 0] := by
    norm_num [GsC2, getG, colOf, zipMul]
  have hstep2 : bwdAux GsC2 rng [[1, 0], [0, 1]] 2 0 2
      = catSample (zipMul [(1 : ℚ), 0] (colOf (getG GsC2 2) 0)) (rng 2)
        :: bwdAux GsC2 rng [[0, 1]] 1
            (catSample (zipMul [(1 : ℚ), 0] (colOf (getG GsC2 2) 0)) (rng 2)) 3 := rfl
  rw [hstep2, hw2, catSample_pair0 1 (rng 2) one_pos (hr 2).1 (hr 2).2]
  have hw3 : zipMul [(0 : ℚ), 1] (colOf (getG GsC2 1) 0) = [0, 1] := by
    norm_num [GsC2, getG, colOf, zipMul]
  have hstep3 : bwdAux GsC2 rng [[0, 1]] 1 0 3
      = catSample (zipMul [(0 : ℚ), 1] (colOf (getG GsC2 1) 0)) (rng 3)
        :: bwdAux GsC2 rng [] 0
            (catSample (zipMul [(0 : ℚ), 1] (colOf (getG GsC2 1) 0)) (rng 3)) 4 := rfl
  rw [hstep3, hw3, catSample_pair1 1 (rng 3) one_pos (hr 3).1 (hr 3).2]
  rfl

/-- Witness for C2 with the constant one-half random source. -/
theorem claim_C2_alternating_witness :
    ffbsSeq gamma0C2 GsC2 likC2 rngHalf = .ok [1, 0, 0, 1] :=
  claim_C2_alternating rngHalf rngHalf_valid

theorem bwdAux_rng_congr (Gs : List Mat) (r1 r2 : RNG) :
    ∀ (revA : List Vec) (tnext next d : ℕ),
      (∀ m, d ≤ m → m < d + revA.length → r1 m = r2 m) →
      bwdAux Gs r1 revA tnext next d = bwdAux Gs r2 revA tnext next d := by
  intro revA
  induction revA with
  | nil => intro tnext next d _; rfl
  | cons a rest ih =>
    intro tnext next d h
    have hd : r1 d = r2 d := h d le_rfl (by simp only [List.length_cons]; omega)
    simp only [bwdAux, hd]
    rw [ih (tnext - 1) _ (d + 1) (fun m h1 h2 => h m (by omega)
      (by simp only [List.length_cons]; omega))]

/-- C8: the FFBS routine is deterministic given the random source's state —
two calls with identical inputs whose random sources agree on the draws the
call consumes (one per timestep) produce identical output sequences. -/
theorem claim_C8_deterministic (gamma_0 : Vec) (Gammas : List Mat) (log_lik : List Vec)
    (r1 r2 : RNG) (h : ∀ n, n < numT log_lik → r1 n = r2 n) :
    ffbsSeq gamma_0 Gammas log_lik r1 = ffbsSeq gamma_0 Gammas log_lik r2 := by
  rw [ffbsSeq, ffbsSeq]
  cases hf : forwardAux Gammas log_lik gamma_0 0 (numT log_lik) with
  | error e => rfl
  | ok as =>
    simp only [Except.map]
    congr 1
    have hlen : as.length = numT log_lik := forwardAux_length Gammas log_lik _ _ _ _ hf
    cases hrev : as.reverse with
    | nil => rw [backwardPass_nil _ _ _ hrev, backwardPass_nil _ _ _ hrev]
    | cons aLast restRev =>
      have hlen2 : as.length = restRev.length + 1 := by
        have := congrArg List.length hrev
        simpa using this
      have h0 : r1 0 = r2 0 := h 0 (by omega)
      rw [backwardPass_cons _ _ _ _ _ hrev, backwardPass_cons _ _ _ _ _ hrev, h0]
      rw [bwdAux_rng_congr Gammas r1 r2 restRev (as.length - 1) _ 1
        (fun m h1 h2 => h m (by omega))]

/-- Witness for C8: two distinct random sources agreeing on the single draw
a one-timestep call consumes. -/
theorem claim_C8_deterministic_witness :
    ffbsSeq [1] [[[1]]] [[1]] rngHalf = ffbsSeq [1] [[[1]]] [[1]] rngAlt :=
  claim_C8_deterministic [1] [[[1]]] [[1]] rngHalf rngAlt (by
    intro n hn
    have hn1 : n = 0 := by simpa [numT] using hn
    subst hn1
    norm_num [rngHalf, rngAlt])

/-- C7: whenever the forward pass exhibits a collapse (some timestep's
filtered vector sums to exactly zero), the FFBS routine raises the explicit
computation error instead of returning a sample, for every random source. -/
theorem claim_C7_collapse_error (gamma_0 : Vec) (Gammas : List Mat) (log_lik : List Vec)
    (rng : RNG) (h : collapsedFrom Gammas log_lik gamma_0 0 (numT log_lik) = true) :
    ffbsSeq gamma_0 Gammas log_lik rng = .error () := by
  rw [ffbsSeq, collapsedFrom_error Gammas log_lik _ _ _ h]
  rfl

/-- Evaluation of the collapse detector on a concrete two-state input whose
time-0 likelihood column annihilates the predictive distribution. -/
theorem collapsed_eval :
    collapsedFrom [idMat 2] [[0], [1]] [1, 0] 0 (numT [[0], [1]]) = true := by
  have hm : maxQ [(0 : ℚ), 1] = 1 := by
    simp only [maxQ, List.foldr]
    rw [max_eq_left (by norm_num : (0 : ℚ) ≤ 1), max_eq_right (by norm_num : (0 : ℚ) ≤ 1)]
  have hraw : rawAlpha [idMat 2] [[0], [1]] [1, 0] 0 = [0, 0] := by
    norm_num [rawAlpha, getG, idMat, basisV, matVecL, nColsOf, colOf, dotL, likCol,
      shiftNorm, hm, zipMul, List.range_succ]
  show collapsedFrom [idMat 2] [[0], [1]] [1, 0] 0 1 = true
  simp only [collapsedFrom, hraw]
  norm_num

/-- Witness for C7 at the concrete collapsing input. -/
theorem claim_C7_collapse_error_witness :
    collapsedFrom [idMat 2] [[0], [1]] [1, 0] 0 (numT [[0], [1]]) = true
      ∧ ffbsSeq [1, 0] [idMat 2] [[0], [1]] rngHalf = .error () :=
  ⟨collapsed_eval,
    claim_C7_collapse_error [1, 0] [idMat 2] [[0], [1]] rngHalf collapsed_eval⟩

/-- C10: `ffbs_step` is out-parameter based: a successful call only rewrites
the scratch array `alphas` and the result array `res`, leaving the input
arrays `gamma_0`, `Gammas` and `log_lik` unchanged, and after the call `res`
holds exactly the sampled state sequence. -/
theorem claim_C10_out_params (b bp : FFBSBuffers) (rng : RNG)
    (h : ffbs_step b rng = .ok bp) :
    bp.gamma_0 = b.gamma_0 ∧ bp.Gammas = b.Gammas ∧ bp.log_lik = b.log_lik
      ∧ Except.ok bp.res = ffbsSeq b.gamma_0 b.Gammas b.log_lik rng := by
  rw [ffbs_step] at h
  cases hf : forwardAux b.Gammas b.log_lik b.gamma_0 0 (numT b.log_lik) with
  | error e => rw [hf] at h; cases h
  | ok as =>
    rw [hf] at h
    simp only [Except.map] at h
    have hb : { b with alphas := as, res := backwardPass b.Gammas as rng } = bp := by
      injection h
    subst hb
    refine ⟨rfl, rfl, rfl, ?_⟩
    rw [ffbsSeq, hf]
    rfl

/-- Evaluation of a concrete `ffbs_step` call on the witness buffers. -/
theorem ffbs_step_eval : ffbs_step bufC10 rngHalf = .ok bufC10r := by
  have hm : maxQ [(1 : ℚ)] = 1 := by
    simp only [maxQ, List.foldr]
    rw [max_eq_left (by norm_num : (0 : ℚ) ≤ 1)]
  have hfwd : forwardAux [[[1]]] [[1]] [1] 0 (numT [[1]]) = .ok [[1]] := by
    norm_num [forwardAux, numT, rawAlpha, getG, matVecL, nColsOf, colOf, dotL, likCol,
      shiftNorm, hm, zipMul, normalizeV, List.range_succ, Except.map]
  have hcs : catSample [(1 : ℚ)] (1/2) = 0 := by
    norm_num [catSample, normalizeV, catSampleAux]
  have hbp : backwardPass [[[1]]] [[1]] rngHalf = [0] := by
    rw [backwardPass_cons [[[1]]] [[1]] [1] [] rngHalf (by rfl)]
    rw [show rngHalf 0 = 1/2 from rfl, hcs]
    rfl
  rw [ffbs_step]
  show (forwardAux [[[1]]] [[1]] [1] 0 (numT [[1]])).map
    (fun as => { bufC10 with alphas := as, res := backwardPass [[[1]]] as rngHalf })
      = .ok bufC10r
  rw [hfwd]
  simp only [Except.map]
  rw [hbp]
  rfl

/-- Witness for C10 at the concrete buffers. -/
theorem claim_C10_out_params_witness :
    bufC10r.gamma_0 = bufC10.gamma_0 ∧ bufC10r.Gammas = bufC10.Gammas
      ∧ bufC10r.log_lik = bufC10.log_lik
      ∧ Except.ok bufC10r.res = ffbsSeq bufC10.gamma_0 bufC10.Gammas bufC10.log_lik rngHalf :=
  claim_C10_out_params bufC10 bufC10r rngHalf ffbs_step_eval

/-- C3: on the 3×3 test matrix — constant row 0, the first Dirichlet vector
scattered into columns `[0, 2]` of row 1, the second scattered into columns
`[1, 2]` of row 2, stacked and broadcast — the setup-time structural analysis
produces exactly the RowGroup mapping `{0 ↦ (row 1, cols [0, 2]),
1 ↦ (row 2, cols [1, 2])}`, and the fully-constant row 0 is omitted. -/
theorem claim_C3_rowgroup_mapping :
    TransMatConjugateStep_analyze exprC3
      = .ok ⟨[(0, 1), (1, 2)], [(0, [0, 2]), (1, [1, 2])]⟩ := rfl

/-- C5: the RowGroup analysis depends only on the static assembly structure:
assembling the same rows by a vertical stack, or by a horizontal stack of the
column vectors followed by a transpose, each under broadcasting, yields the
identical analysis result (hence equal `row_remaps` and equal `row_slices`),
for every list of row expressions. -/
theorem claim_C5_structure_only (rows : List RowExpr) :
    TransMatConjugateStep_analyze (.broadcastTo (.stackRows rows))
      = TransMatConjugateStep_analyze (.broadcastTo (.transposeOf (.hstackCols rows))) := rfl

/-- C6: step construction validates its variables eagerly: attaching
`FFBSStep` to two or more variables raises `ValueError`; attaching it to a
single variable that is not a `DiscreteMarkovChain` raises `TypeError`;
attaching it to a `DiscreteMarkovChain` whose dependent variable is not a
`SwitchingProcess` raises `TypeError`; and running the
`TransMatConjugateStep` analysis on a bare Dirichlet vector raises
`ValueError`. -/
theorem claim_C6_setup_validation (v w dep dep2 dep3 : RVKind) (vs : List RVKind) (i : ℕ)
    (h1 : v ≠ .discreteMarkovChain) (h2 : dep2 ≠ .switchingProcess) :
    FFBSStep_validate (w :: v :: vs) dep = .error .valueError
      ∧ FFBSStep_validate [v] dep3 = .error .typeError
      ∧ FFBSStep_validate [.discreteMarkovChain] dep2 = .error .typeError
      ∧ TransMatConjugateStep_analyze (.bareVec i) = .error .valueError := by
  refine ⟨rfl, ?_, ?_, rfl⟩
  · simp only [FFBSStep_validate]
    rw [if_neg h1]
  · simp only [FFBSStep_validate, if_true]
    rw [if_neg h2]

/-- Witness for C6 at concrete variable kinds. -/
theorem claim_C6_setup_validation_witness :
    FFBSStep_validate [.categoricalRV, .categoricalRV] .switchingProcess = .error .valueError
      ∧ FFBSStep_validate [.categoricalRV] .switchingProcess = .error .typeError
      ∧ FFBSStep_validate [.discreteMarkovChain] .poissonRV = .error .typeError
      ∧ TransMatConjugateStep_analyze (.bareVec 0) = .error .valueError :=
  claim_C6_setup_validation .categoricalRV .categoricalRV .switchingProcess .poissonRV
    .switchingProcess [] 0 (by decide) (by decide)

theorem dirPosterior_ones (counts : List ℕ) :
    dirPosterior (List.replicate counts.length 1) counts
      = counts.map (fun (c : ℕ) => 1 + (c : ℚ)) := by
  induction counts with
  | nil => rfl
  | cons c cs ih =>
    rw [List.length_cons, List.replicate_succ, dirPosterior, List.map_cons,
      List.zipWith_cons_cons, List.map_cons]
    congr 1

theorem sum_map_one_add (counts : List ℕ) :
    (counts.map (fun (c : ℕ) => 1 + (c : ℚ))).sum
      = (counts.length : ℚ) + (counts.sum : ℚ) := by
  induction counts with
  | nil => simp
  | cons c cs ih =>
    simp only [List.map_cons, List.sum_cons, ih, List.length_cons, List.sum_cons]
    push_cast
    ring

/-- C4: for each logical row of the RowGroup mapping, the conjugate draw of
the updater samples from the Dirichlet posterior whose concentration is the
prior plus the observed transition counts out of the destination state,
restricted to the recorded column subset when one is present; and with an
all-ones (Dirichlet(1,...,1)) prior, the posterior mean is exactly the
empirical transition frequencies with Laplace smoothing. -/
theorem claim_C4_conjugate_posterior (K : ℕ) (seq : List ℕ) (entries : List RowGroupEntry)
    (draw : List ℚ → ℕ → Vec) (i : ℕ) (e : RowGroupEntry) (counts : List ℕ)
    (he : entries[i]? = some e) :
    (TransMatConjugateStep_draw K seq entries draw)[i]?
        = some (draw (dirPosterior e.prior
            (transCounts seq e.dest (e.cols.getD (List.range K)))) i)
      ∧ dirichletMean (dirPosterior (List.replicate counts.length 1) counts)
        = laplaceFreq counts := by
  constructor
  · rw [TransMatConjugateStep_draw, List.getElem?_map, List.getElem?_enum, he]
    rfl
  · rw [dirPosterior_ones, dirichletMean, sum_map_one_add, List.map_map, laplaceFreq]
    refine List.map_congr_left ?_
    intro c _
    simp only [Function.comp]
    ring

/-- Witness for C4 at a concrete entry, state sequence and count vector. -/
theorem claim_C4_conjugate_posterior_witness :
    (TransMatConjugateStep_draw 3 [0, 1, 0, 2] [rgEntryW] (fun a _ => a))[0]?
        = some ((fun (a : List ℚ) (_ : ℕ) => a) (dirPosterior rgEntryW.prior
            (transCounts [0, 1, 0, 2] rgEntryW.dest (rgEntryW.cols.getD (List.range 3)))) 0)
      ∧ dirichletMean (dirPosterior (List.replicate ([2, 3] : List ℕ).length 1) [2, 3])
        = laplaceFreq [2, 3] :=
  claim_C4_conjugate_posterior 3 [0, 1, 0, 2] [rgEntryW] (fun a _ => a) 0 rgEntryW
    [2, 3] rfl
